import Mathlib

/-!
Verification of the container-scanning, payload-extraction and filename-derivation
logic of `extract_godot_images.py`.

The extraction core is `extract_webp_from_ctex` (lines 59-111 of the source):
it reads a `.ctex` container into a byte buffer, scans for the 4-byte
signature `b'RIFF'` with `data.find`, validates each candidate offset
(at least 12 bytes remaining, type tag `b'WEBP'` at offset+8..offset+12,
little-endian 32-bit size at offset+4..offset+8 with
`offset + size + 8 <= len(data)`), and on the first structurally valid
candidate writes `data[offset : offset + size + 8]` to a file whose name is
derived from the container's filename.  The batch driver `extract_images`
(lines 163-176) applies this to every container file and counts successes
and failures.

Bytes are modelled as `Nat` (with explicit `< 256` hypotheses where the
numeric range matters), buffers as `List Nat`, and Python strings as
`List Char`.  Loops are embedded as fuel-indexed structural recursions so
that every definition is executable by the kernel; the fuel supplied by the
wrappers is proved sufficient below (`extractLoopFuel_congr`,
`replaceAllFuel_congr`).
-/

namespace GodotUnpacker

/-- The scanned-for signature, `webp_sig = b'RIFF'` (line 66 of the source). -/
def webp_sig : List Nat := [82, 73, 70, 70]

/-- The type tag `b'WEBP'` checked at offset+8..offset+12 (line 77). -/
def webpTag : List Nat := [87, 69, 66, 80]

/-- `data[a:b]`: Python slice of a byte buffer. -/
def listSlice (data : List Nat) (a b : Nat) : List Nat :=
  (data.drop a).take (b - a)

/-- `data[i : i + len(pat)] == pat`: a literal, unaligned occurrence of
`pat` at index `i` of `data` (the match semantics of `bytes.find`). -/
def matchesAt (data pat : List Nat) (i : Nat) : Bool :=
  listSlice data i (i + pat.length) == pat

/-- Fuel-indexed scan underlying `data.find(pat, start)`: try indices
`start`, `start+1`, ... and return the first literal occurrence of `pat`. -/
def bytesFindAux (data pat : List Nat) : Nat → Nat → Option Nat
  | 0, _ => none
  | fuel + 1, start =>
    if start + pat.length ≤ data.length then
      if matchesAt data pat start then some start
      else bytesFindAux data pat fuel (start + 1)
    else none

/-- `data.find(pat, start)` (line 70 of the source): index of the first
occurrence of `pat` at or after `start`, or `none` (Python's `-1`). -/
def bytesFind (data pat : List Nat) (start : Nat) : Option Nat :=
  bytesFindAux data pat (data.length + 1 - start) start

/-- Little-endian value of a list of bytes (least significant first). -/
def leNat (bs : List Nat) : Nat :=
  bs.foldr (fun b acc => b + 256 * acc) 0

/-- `struct.unpack('<I', data[i:i+4])[0]` (line 79): the unsigned 32-bit
little-endian integer stored at bytes `i..i+4`. -/
def readLE32 (data : List Nat) (i : Nat) : Nat :=
  leNat (listSlice data i (i + 4))

/-- Python's `str.split(sep)` specialised to a single-character separator
(the source only uses `file_name.split('-')`, line 90). -/
def splitOnChar (sep : Char) : List Char → List (List Char)
  | [] => [[]]
  | c :: rest =>
    let r := splitOnChar sep rest
    if c = sep then [] :: r
    else (c :: r.headI) :: r.tail

/-- Fuel-indexed scan underlying Python's `str.replace(pat, rep)`:
left-to-right, non-overlapping replacement of every occurrence. -/
def replaceAllFuel (pat rep : List Char) : Nat → List Char → List Char
  | _, [] => []
  | 0, s => s
  | fuel + 1, c :: rest =>
    if pat.isPrefixOf (c :: rest) then
      rep ++ replaceAllFuel pat rep fuel (rest.drop (pat.length - 1))
    else
      c :: replaceAllFuel pat rep fuel rest

/-- `s.replace(pat, rep)` for a nonempty pattern (line 92 of the source
uses `file_name.replace('.ctex', '')`). -/
def replaceAll (pat rep s : List Char) : List Char :=
  replaceAllFuel pat rep s.length s

/-- The characters of `'.ctex'`. -/
def ctexStr : List Char := ['.', 'c', 't', 'e', 'x']

/-- The characters of `'.webp'`. -/
def webpExt : List Char := ['.', 'w', 'e', 'b', 'p']

/-- The output-filename derivation of `extract_webp_from_ctex`
(lines 86-96 of the source):

    if '-' in file_name:
        original_name = file_name.split('-')[0]
    else:
        original_name = file_name.replace('.ctex', '')
    if '.' not in original_name:
        original_name += '.webp'
-/
def deriveName (file_name : List Char) : List Char :=
  let original_name :=
    if '-' ∈ file_name then (splitOnChar '-' file_name).headI
    else replaceAll ctexStr [] file_name
  if '.' ∈ original_name then original_name
  else original_name ++ webpExt

/-- Outcome of one extraction: the source returns
`(True, output_path.name)` after writing `webp_data`, or
`(False, "未找到WebP数据")`.  The `extracted` constructor carries the derived
output filename and the exact bytes written. -/
inductive ExtractResult where
  | extracted (name : List Char) (payload : List Nat)
  | notFound
deriving DecidableEq

/-- Fuel-indexed embedding of the `while True` scanning loop of
`extract_webp_from_ctex` (lines 69-108 of the source), starting at
position `pos`:

    while True:
        pos = data.find(webp_sig, pos)
        if pos == -1:
            break
        if pos + 12 <= len(data):
            if data[pos+8:pos+12] == b'WEBP':
                size = struct.unpack('<I', data[pos+4:pos+8])[0]
                if pos + size + 8 <= len(data):
                    webp_data = data[pos:pos+size+8]
                    ... derive original_name, write webp_data ...
                    return True, output_path.name
        pos += 1
    return False, "未找到WebP数据"
-/
def extractLoopFuel (data : List Nat) (name : List Char) : Nat → Nat → ExtractResult
  | 0, _ => ExtractResult.notFound
  | fuel + 1, pos =>
    match bytesFind data webp_sig pos with
    | none => ExtractResult.notFound
    | some p =>
      if p + 12 ≤ data.length then
        if listSlice data (p + 8) (p + 12) = webpTag then
          let size := readLE32 data (p + 4)
          if p + size + 8 ≤ data.length then
            ExtractResult.extracted (deriveName name) (listSlice data p (p + size + 8))
          else extractLoopFuel data name fuel (p + 1)
        else extractLoopFuel data name fuel (p + 1)
      else extractLoopFuel data name fuel (p + 1)

/-- The scanning loop entered at position `pos`; `data.length + 1 - pos`
rounds of fuel are sufficient (`extractLoop_step` below recovers the exact
loop-step equation). -/
def extractLoop (data : List Nat) (name : List Char) (pos : Nat) : ExtractResult :=
  extractLoopFuel data name (data.length + 1 - pos) pos

/-- Pure core of `extract_webp_from_ctex`: scan `data` (the container
bytes) from position 0, given the container's on-disk filename. -/
def extract_webp_from_ctex (data : List Nat) (name : List Char) : ExtractResult :=
  extractLoop data name 0

/-- A structurally valid frame at offset `k`: `b'RIFF'` at `k..k+4`,
`b'WEBP'` at `k+8..k+12`, and the declared little-endian size at
`k+4..k+8` fits in the buffer (`k + 8 + size <= len(data)`). -/
def validFrameAt (data : List Nat) (k : Nat) : Prop :=
  listSlice data k (k + 4) = webp_sig ∧
  listSlice data (k + 8) (k + 12) = webpTag ∧
  k + 8 + readLE32 data (k + 4) ≤ data.length

instance validFrameAtDec (data : List Nat) (k : Nat) : Decidable (validFrameAt data k) := by
  unfold validFrameAt
  infer_instance

/-- Python's `pat in s` on strings: some literal occurrence of `pat`. -/
def hasSubstr (pat : List Char) : List Char → Bool
  | [] => pat == []
  | c :: rest => pat.isPrefixOf (c :: rest) || hasSubstr pat rest

/-- Filename derivation in the wording of the claim (amended reading):
the base name is the substring before the first `-` when a `-` is present,
otherwise the filename with every occurrence of `.ctex` removed; a default
`.webp` extension is appended when the base name has no `.`. -/
def deriveNameClaim (F : List Char) : List Char :=
  let base :=
    if '-' ∈ F then F.takeWhile (fun c => c ≠ '-')
    else replaceAll ctexStr [] F
  if '.' ∈ base then base else base ++ webpExt

/-- Filename derivation in the literal wording of claim C3: in the
no-`-` branch the base name is `F` with its `.ctex` *suffix* removed
(only a trailing occurrence), not every occurrence. -/
def deriveNameSuffixSpec (F : List Char) : List Char :=
  let base :=
    if '-' ∈ F then F.takeWhile (fun c => c ≠ '-')
    else if ctexStr.isSuffixOf F then F.take (F.length - ctexStr.length)
    else F
  if '.' ∈ base then base else base ++ webpExt

/-- Per-file outcome at the `extract_webp_from_ctex` boundary; the
`try/except` at lines 61-111 converts any exception into
`(False, str(e))`. -/
inductive FileOutcome where
  | ok (name : List Char)
  | failed (reason : List Char)
deriving DecidableEq

/-- The failure message returned at line 108 of the source. -/
def noWebpMsg : List Char := "未找到WebP数据".toList

/-- One file processed at the per-file boundary: a failed read surfaces as
a per-file failure (the `except` branch, lines 110-111), and a buffer with
no valid frame surfaces as the `(False, "未找到WebP数据")` result. -/
def extractOutcome (name : List Char) (read : Except (List Char) (List Nat)) : FileOutcome :=
  match read with
  | Except.error e => FileOutcome.failed e
  | Except.ok data =>
    match extract_webp_from_ctex data name with
    | ExtractResult.extracted n _ => FileOutcome.ok n
    | ExtractResult.notFound => FileOutcome.failed noWebpMsg

/-- Whether a batch entry fails at the per-file boundary. -/
def isFailureB (f : List Char × Except (List Char) (List Nat)) : Bool :=
  match extractOutcome f.1 f.2 with
  | FileOutcome.failed _ => true
  | FileOutcome.ok _ => false

/-- One iteration of the batch loop of `extract_images` (lines 167-176 of
the source): update `(success_count, failed_count, failed_files)` with one
file's outcome. -/
def batchStep (acc : Nat × Nat × List (List Char))
    (f : List Char × Except (List Char) (List Nat)) : Nat × Nat × List (List Char) :=
  match extractOutcome f.1 f.2 with
  | FileOutcome.ok _ => (acc.1 + 1, acc.2.1, acc.2.2)
  | FileOutcome.failed _ => (acc.1, acc.2.1 + 1, acc.2.2 ++ [f.1])

/-- The batch loop of `extract_images` (lines 163-176 of the source):
process every container file, accumulating
`(success_count, failed_count, failed_files)`. -/
def extract_images_loop (files : List (List Char × Except (List Char) (List Nat))) :
    Nat × Nat × List (List Char) :=
  files.foldl batchStep (0, 0, [])

/-! ## Lemmas about the signature scanner -/

theorem matchesAt_iff (data pat : List Nat) (i : Nat) :
    matchesAt data pat i = true ↔ listSlice data i (i + pat.length) = pat := by
  unfold matchesAt
  exact beq_iff_eq

theorem matchesAt_le (data pat : List Nat) (i : Nat) (hne : 0 < pat.length)
    (h : matchesAt data pat i = true) : i + pat.length ≤ data.length := by
  rw [matchesAt_iff] at h
  have hlen := congrArg List.length h
  unfold listSlice at hlen
  rw [List.length_take, List.length_drop] at hlen
  omega

theorem matchesAt_sig_le (data : List Nat) (p : Nat)
    (h : matchesAt data webp_sig p = true) : p + 4 ≤ data.length := by
  have hlen := matchesAt_le data webp_sig p (by decide) h
  rw [show webp_sig.length = 4 from rfl] at hlen
  exact hlen

theorem matchesAt_sig_slice (data : List Nat) (p : Nat)
    (h : matchesAt data webp_sig p = true) : listSlice data p (p + 4) = webp_sig := by
  have h2 := (matchesAt_iff data webp_sig p).mp h
  rw [show webp_sig.length = 4 from rfl] at h2
  exact h2

theorem validFrameAt_le (data : List Nat) (k : Nat) (h : validFrameAt data k) :
    k + 12 ≤ data.length := by
  have hlen := congrArg List.length h.2.1
  unfold listSlice at hlen
  rw [List.length_take, List.length_drop] at hlen
  rw [show webpTag.length = 4 from rfl] at hlen
  omega

theorem validFrameAt_matchesAt (data : List Nat) (k : Nat) (h : validFrameAt data k) :
    matchesAt data webp_sig k = true := by
  rw [matchesAt_iff]
  rw [show webp_sig.length = 4 from rfl]
  exact h.1

theorem bytesFindAux_some (data pat : List Nat) :
    ∀ fuel start p, bytesFindAux data pat fuel start = some p →
      start ≤ p ∧ matchesAt data pat p = true ∧
      ∀ i, start ≤ i → i < p → matchesAt data pat i = false := by
  intro fuel
  induction fuel with
  | zero =>
    intro start p h
    simp [bytesFindAux] at h
  | succ f ih =>
    intro start p h
    simp only [bytesFindAux] at h
    by_cases hg : start + pat.length ≤ data.length
    · rw [if_pos hg] at h
      by_cases hmt : matchesAt data pat start = true
      · rw [if_pos hmt] at h
        injection h with h
        subst h
        exact ⟨le_refl _, hmt, fun i h1 h2 => by omega⟩
      · rw [if_neg hmt] at h
        obtain ⟨h1, h2, h3⟩ := ih (start + 1) p h
        refine ⟨by omega, h2, fun i hi1 hi2 => ?_⟩
        rcases Nat.eq_or_lt_of_le hi1 with heq | hlt
        · subst heq
          exact Bool.not_eq_true _ |>.mp hmt
        · exact h3 i (by omega) hi2
    · rw [if_neg hg] at h
      exact absurd h (by simp)

theorem bytesFind_some (data pat : List Nat) (start p : Nat)
    (h : bytesFind data pat start = some p) :
    start ≤ p ∧ matchesAt data pat p = true ∧
    ∀ i, start ≤ i → i < p → matchesAt data pat i = false :=
  bytesFindAux_some data pat _ start p h

theorem bytesFind_step (data pat : List Nat) (start : Nat) :
    bytesFind data pat start =
      if start + pat.length ≤ data.length then
        if matchesAt data pat start then some start
        else bytesFind data pat (start + 1)
      else none := by
  unfold bytesFind
  rcases hm : data.length + 1 - start with _ | f
  · have hg : ¬ (start + pat.length ≤ data.length) := by omega
    rw [if_neg hg]
    rfl
  · have h2 : data.length + 1 - (start + 1) = f := by omega
    rw [h2]
    rfl

theorem bytesFind_none (data pat : List Nat) (hne : 0 < pat.length) :
    ∀ start, bytesFind data pat start = none →
      ∀ i, start ≤ i → matchesAt data pat i = false := by
  have key : ∀ m start, data.length + 1 - start ≤ m →
      bytesFind data pat start = none →
      ∀ i, start ≤ i → matchesAt data pat i = false := by
    intro m
    induction m with
    | zero =>
      intro start hm _ i hi
      cases h2 : matchesAt data pat i with
      | false => rfl
      | true =>
        have := matchesAt_le data pat i hne h2
        omega
    | succ m ih =>
      intro start hm hf i hi
      rw [bytesFind_step] at hf
      by_cases hg : start + pat.length ≤ data.length
      · rw [if_pos hg] at hf
        by_cases hmt : matchesAt data pat start = true
        · rw [if_pos hmt] at hf
          exact absurd hf (by simp)
        · rw [if_neg hmt] at hf
          rcases Nat.eq_or_lt_of_le hi with heq | hlt
          · subst heq
            exact Bool.not_eq_true _ |>.mp hmt
          · exact ih (start + 1) (by omega) hf i (by omega)
      · rw [if_neg hg] at hf
        cases h2 : matchesAt data pat i with
        | false => rfl
        | true =>
          have := matchesAt_le data pat i hne h2
          omega
  intro start hf i hi
  exact key (data.length + 1 - start) start (le_refl _) hf i hi

theorem bytesFind_none_of_big (data pat : List Nat) (start : Nat)
    (h : data.length + 1 ≤ start) : bytesFind data pat start = none := by
  unfold bytesFind
  rw [show data.length + 1 - start = 0 from by omega]
  rfl

/-! ## Lemmas about the extraction loop -/

theorem extractLoopFuel_congr (data : List Nat) (name : List Char) :
    ∀ f1 f2 pos, data.length + 1 - pos ≤ f1 → data.length + 1 - pos ≤ f2 →
      extractLoopFuel data name f1 pos = extractLoopFuel data name f2 pos := by
  intro f1
  induction f1 with
  | zero =>
    intro f2 pos h1 _
    have hfind : bytesFind data webp_sig pos = none :=
      bytesFind_none_of_big data webp_sig pos (by omega)
    cases f2 with
    | zero => rfl
    | succ b => simp only [extractLoopFuel, hfind]
  | succ a ih =>
    intro f2 pos h1 h2
    cases f2 with
    | zero =>
      have hfind : bytesFind data webp_sig pos = none :=
        bytesFind_none_of_big data webp_sig pos (by omega)
      simp only [extractLoopFuel, hfind]
    | succ b =>
      simp only [extractLoopFuel]
      cases hfind : bytesFind data webp_sig pos with
      | none => rfl
      | some p =>
        obtain ⟨hp1, hp2, _⟩ := bytesFind_some data webp_sig pos p hfind
        have hple := matchesAt_sig_le data p hp2
        have hrec := ih b (p + 1) (by omega) (by omega)
        simp only [hrec]

theorem extractLoop_step_none (data : List Nat) (name : List Char) (pos : Nat)
    (hfind : bytesFind data webp_sig pos = none) :
    extractLoop data name pos = ExtractResult.notFound := by
  unfold extractLoop
  rcases hm : data.length + 1 - pos with _ | f
  · rfl
  · simp only [extractLoopFuel, hfind]

theorem extractLoop_step_some (data : List Nat) (name : List Char) (pos p : Nat)
    (hfind : bytesFind data webp_sig pos = some p) :
    extractLoop data name pos =
      if p + 12 ≤ data.length then
        if listSlice data (p + 8) (p + 12) = webpTag then
          if p + readLE32 data (p + 4) + 8 ≤ data.length then
            ExtractResult.extracted (deriveName name)
              (listSlice data p (p + readLE32 data (p + 4) + 8))
          else extractLoop data name (p + 1)
        else extractLoop data name (p + 1)
      else extractLoop data name (p + 1) := by
  obtain ⟨hp1, hp2, _⟩ := bytesFind_some data webp_sig pos p hfind
  have hple := matchesAt_sig_le data p hp2
  unfold extractLoop
  rcases hm : data.length + 1 - pos with _ | f
  · have := bytesFind_none_of_big data webp_sig pos (by omega)
    rw [this] at hfind
    exact absurd hfind (by simp)
  · simp only [extractLoopFuel, hfind]
    have hrec : extractLoopFuel data name f (p + 1) =
        extractLoopFuel data name (data.length + 1 - (p + 1)) (p + 1) :=
      extractLoopFuel_congr data name f (data.length + 1 - (p + 1)) (p + 1)
        (by omega) (le_refl _)
    rw [hrec]

theorem extractLoop_rejected (data : List Nat) (name : List Char) (pos p : Nat)
    (hfind : bytesFind data webp_sig pos = some p)
    (hnv : ¬ validFrameAt data p) :
    extractLoop data name pos = extractLoop data name (p + 1) := by
  obtain ⟨hp1, hp2, _⟩ := bytesFind_some data webp_sig pos p hfind
  have hRIFF := matchesAt_sig_slice data p hp2
  rw [extractLoop_step_some data name pos p hfind]
  by_cases h12 : p + 12 ≤ data.length
  · rw [if_pos h12]
    by_cases hw : listSlice data (p + 8) (p + 12) = webpTag
    · rw [if_pos hw]
      by_cases hb : p + readLE32 data (p + 4) + 8 ≤ data.length
      · exact absurd ⟨hRIFF, hw, by omega⟩ hnv
      · rw [if_neg hb]
    · rw [if_neg hw]
  · rw [if_neg h12]

theorem extractLoop_reach (data : List Nat) (name : List Char) (k : Nat)
    (hk : validFrameAt data k) :
    ∀ m pos, k + 1 - pos ≤ m → pos ≤ k →
      (∀ j, pos ≤ j → j < k → ¬ validFrameAt data j) →
      extractLoop data name pos =
        ExtractResult.extracted (deriveName name)
          (listSlice data k (k + 8 + readLE32 data (k + 4))) := by
  intro m
  induction m with
  | zero =>
    intro pos h1 h2 _
    omega
  | succ m ih =>
    intro pos h1 h2 hfirst
    have hmk : matchesAt data webp_sig k = true := validFrameAt_matchesAt data k hk
    cases hfind : bytesFind data webp_sig pos with
    | none =>
      have := bytesFind_none data webp_sig (by decide) pos hfind k h2
      rw [this] at hmk
      exact absurd hmk (by simp)
    | some p =>
      obtain ⟨hp1, hp2, hp3⟩ := bytesFind_some data webp_sig pos p hfind
      have hpk : p ≤ k := by
        by_contra hgt
        push_neg at hgt
        have := hp3 k h2 hgt
        rw [this] at hmk
        exact absurd hmk (by simp)
      rcases Nat.eq_or_lt_of_le hpk with heq | hlt
      · subst heq
        rw [extractLoop_step_some data name pos p hfind]
        rw [if_pos (validFrameAt_le data p hk)]
        rw [if_pos hk.2.1]
        rw [if_pos (show p + readLE32 data (p + 4) + 8 ≤ data.length from by
          have := hk.2.2; omega)]
        rw [show p + readLE32 data (p + 4) + 8 = p + 8 + readLE32 data (p + 4) from by omega]
      · have hstep := extractLoop_rejected data name pos p hfind (hfirst p hp1 hlt)
        rw [hstep]
        exact ih (p + 1) (by omega) (by omega) (fun j hj1 hj2 => hfirst j (by omega) hj2)

theorem extractLoop_notFound (data : List Nat) (name : List Char) :
    ∀ m pos, data.length + 1 - pos ≤ m →
      (∀ j, pos ≤ j → ¬ validFrameAt data j) →
      extractLoop data name pos = ExtractResult.notFound := by
  intro m
  induction m with
  | zero =>
    intro pos h1 _
    exact extractLoop_step_none data name pos
      (bytesFind_none_of_big data webp_sig pos (by omega))
  | succ m ih =>
    intro pos h1 hnone
    cases hfind : bytesFind data webp_sig pos with
    | none => exact extractLoop_step_none data name pos hfind
    | some p =>
      obtain ⟨hp1, hp2, _⟩ := bytesFind_some data webp_sig pos p hfind
      have hple := matchesAt_sig_le data p hp2
      rw [extractLoop_rejected data name pos p hfind (hnone p hp1)]
      exact ih (p + 1) (by omega) (fun j hj => hnone j (by omega))

theorem extractLoop_sound (data : List Nat) (name : List Char) :
    ∀ m pos n pl, data.length + 1 - pos ≤ m →
      extractLoop data name pos = ExtractResult.extracted n pl →
      ∃ q, pos ≤ q ∧ validFrameAt data q ∧ n = deriveName name ∧
        pl = listSlice data q (q + 8 + readLE32 data (q + 4)) := by
  intro m
  induction m with
  | zero =>
    intro pos n pl h1 h2
    rw [extractLoop_step_none data name pos
      (bytesFind_none_of_big data webp_sig pos (by omega))] at h2
    exact absurd h2 (by simp)
  | succ m ih =>
    intro pos n pl h1 h2
    cases hfind : bytesFind data webp_sig pos with
    | none =>
      rw [extractLoop_step_none data name pos hfind] at h2
      exact absurd h2 (by simp)
    | some p =>
      obtain ⟨hp1, hp2, _⟩ := bytesFind_some data webp_sig pos p hfind
      have hple := matchesAt_sig_le data p hp2
      by_cases hv : validFrameAt data p
      · rw [extractLoop_step_some data name pos p hfind] at h2
        rw [if_pos (validFrameAt_le data p hv)] at h2
        rw [if_pos hv.2.1] at h2
        rw [if_pos (show p + readLE32 data (p + 4) + 8 ≤ data.length from by
          have := hv.2.2; omega)] at h2
        injection h2 with hn hpl
        refine ⟨p, hp1, hv, hn.symm, ?_⟩
        rw [← hpl]
        rw [show p + readLE32 data (p + 4) + 8 = p + 8 + readLE32 data (p + 4) from by omega]
      · rw [extractLoop_rejected data name pos p hfind hv] at h2
        obtain ⟨q, hq1, hq2, hq3, hq4⟩ := ih (p + 1) n pl (by omega) h2
        exact ⟨q, by omega, hq2, hq3, hq4⟩

/-! ## Lemmas about string replacement and filename derivation -/

theorem replaceAllFuel_congr (pat rep : List Char) :
    ∀ f1 f2 s, s.length ≤ f1 → s.length ≤ f2 →
      replaceAllFuel pat rep f1 s = replaceAllFuel pat rep f2 s := by
  intro f1
  induction f1 with
  | zero =>
    intro f2 s h1 _
    have hs : s = [] := List.length_eq_zero.mp (by omega)
    subst hs
    cases f2 <;> rfl
  | succ a ih =>
    intro f2 s h1 h2
    cases s with
    | nil => cases f2 <;> rfl
    | cons c rest =>
      cases f2 with
      | zero =>
        simp only [List.length_cons] at h2
        omega
      | succ b =>
        simp only [List.length_cons] at h1 h2
        simp only [replaceAllFuel]
        by_cases hp : pat.isPrefixOf (c :: rest) = true
        · rw [if_pos hp, if_pos hp]
          congr 1
          exact ih b (rest.drop (pat.length - 1))
            (by rw [List.length_drop]; omega) (by rw [List.length_drop]; omega)
        · rw [if_neg hp, if_neg hp]
          congr 1
          exact ih b rest (by omega) (by omega)

theorem replaceAll_cons (pat rep : List Char) (c : Char) (rest : List Char) :
    replaceAll pat rep (c :: rest) =
      if pat.isPrefixOf (c :: rest) then
        rep ++ replaceAll pat rep (rest.drop (pat.length - 1))
      else c :: replaceAll pat rep rest := by
  unfold replaceAll
  simp only [List.length_cons, replaceAllFuel]
  by_cases hp : pat.isPrefixOf (c :: rest) = true
  · rw [if_pos hp, if_pos hp]
    congr 1
    exact replaceAllFuel_congr pat rep rest.length (rest.drop (pat.length - 1)).length
      (rest.drop (pat.length - 1)) (by rw [List.length_drop]; omega) (le_refl _)
  · rw [if_neg hp, if_neg hp]

theorem replaceAll_id_of_not_hasSubstr (pat : List Char) :
    ∀ s, hasSubstr pat s = false → replaceAll pat [] s = s := by
  intro s
  induction s with
  | nil => intro _; rfl
  | cons c rest ih =>
    intro h
    simp only [hasSubstr, Bool.or_eq_false_iff] at h
    rw [replaceAll_cons]
    rw [if_neg (by rw [h.1]; exact Bool.false_ne_true)]
    rw [ih h.2]

theorem mem_replaceAll_nil (pat : List Char) :
    ∀ s x, x ∈ replaceAll pat [] s → x ∈ s := by
  have key : ∀ n s, s.length ≤ n → ∀ x, x ∈ replaceAll pat [] s → x ∈ s := by
    intro n
    induction n with
    | zero =>
      intro s hs x hx
      have h0 : s = [] := List.length_eq_zero.mp (by omega)
      subst h0
      simp [replaceAll, replaceAllFuel] at hx
    | succ n ih =>
      intro s hs x hx
      cases s with
      | nil => simp [replaceAll, replaceAllFuel] at hx
      | cons c rest =>
        simp only [List.length_cons] at hs
        rw [replaceAll_cons] at hx
        by_cases hp : pat.isPrefixOf (c :: rest) = true
        · rw [if_pos hp] at hx
          simp only [List.nil_append] at hx
          have hx' := ih (rest.drop (pat.length - 1)) (by rw [List.length_drop]; omega) x hx
          exact List.mem_cons_of_mem c ((List.drop_sublist _ _).subset hx')
        · rw [if_neg hp] at hx
          rcases List.mem_cons.mp hx with heq | hx'
          · subst heq
            exact List.mem_cons_self _ _
          · exact List.mem_cons_of_mem c (ih rest (by omega) x hx')
  intro s x hx
  exact key s.length s (le_refl _) x hx

theorem splitOnChar_headI (sep : Char) :
    ∀ l : List Char, (splitOnChar sep l).headI = l.takeWhile (fun c => c ≠ sep) := by
  intro l
  induction l with
  | nil => rfl
  | cons c rest ih =>
    simp only [splitOnChar]
    by_cases hc : c = sep
    · rw [if_pos hc]
      subst hc
      simp [List.takeWhile_cons]
    · rw [if_neg hc]
      show c :: (splitOnChar sep rest).headI =
        List.takeWhile (fun x => decide (x ≠ sep)) (c :: rest)
      rw [List.takeWhile_cons]
      rw [if_pos (by simp [hc])]
      rw [ih]

theorem deriveName_eq_claim (F : List Char) : deriveName F = deriveNameClaim F := by
  simp only [deriveName, deriveNameClaim, splitOnChar_headI]

theorem dash_not_mem_deriveName (F : List Char) : '-' ∉ deriveName F := by
  intro hmem
  simp only [deriveName] at hmem
  by_cases hd : '-' ∈ F
  · rw [if_pos hd, splitOnChar_headI] at hmem
    by_cases hdot : '.' ∈ F.takeWhile (fun c => c ≠ '-')
    · rw [if_pos hdot] at hmem
      have := List.mem_takeWhile_imp hmem
      simp at this
    · rw [if_neg hdot] at hmem
      rcases List.mem_append.mp hmem with h | h
      · have := List.mem_takeWhile_imp h
        simp at this
      · simp [webpExt] at h
  · rw [if_neg hd] at hmem
    by_cases hdot : '.' ∈ replaceAll ctexStr [] F
    · rw [if_pos hdot] at hmem
      exact hd (mem_replaceAll_nil ctexStr F '-' hmem)
    · rw [if_neg hdot] at hmem
      rcases List.mem_append.mp hmem with h | h
      · exact hd (mem_replaceAll_nil ctexStr F '-' h)
      · simp [webpExt] at h

theorem dot_mem_deriveName (F : List Char) : '.' ∈ deriveName F := by
  simp only [deriveName]
  by_cases hdot : '.' ∈ (if '-' ∈ F then (splitOnChar '-' F).headI else replaceAll ctexStr [] F)
  · rw [if_pos hdot]
    exact hdot
  · rw [if_neg hdot]
    exact List.mem_append_right _ (by simp [webpExt])

/-! ## Lemmas about the little-endian size field -/

theorem getD_lt (data : List Nat) (i : Nat) (h : i < data.length) :
    data.getD i 0 = data[i] := by
  rw [List.getD_eq_getElem?_getD, List.getElem?_eq_getElem h]
  rfl

theorem listSlice_four (data : List Nat) (i : Nat) (h : i + 4 ≤ data.length) :
    listSlice data i (i + 4) =
      [data.getD i 0, data.getD (i + 1) 0, data.getD (i + 2) 0, data.getD (i + 3) 0] := by
  unfold listSlice
  rw [show i + 4 - i = 4 from by omega]
  rw [List.drop_eq_getElem_cons (show i < data.length from by omega)]
  rw [List.drop_eq_getElem_cons (show i + 1 < data.length from by omega)]
  rw [List.drop_eq_getElem_cons (show i + 2 < data.length from by omega)]
  rw [List.drop_eq_getElem_cons (show i + 3 < data.length from by omega)]
  simp only [List.take_succ_cons, List.take_zero]
  rw [getD_lt data i (by omega), getD_lt data (i + 1) (by omega),
    getD_lt data (i + 2) (by omega), getD_lt data (i + 3) (by omega)]

theorem readLE32_eq (data : List Nat) (i : Nat) (h : i + 4 ≤ data.length) :
    readLE32 data i =
      data.getD i 0 + 256 * data.getD (i + 1) 0 +
        256 ^ 2 * data.getD (i + 2) 0 + 256 ^ 3 * data.getD (i + 3) 0 := by
  unfold readLE32
  rw [listSlice_four data i h]
  simp only [leNat, List.foldr]
  ring

theorem readLE32_lt (data : List Nat) (i : Nat) (h : i + 4 ≤ data.length)
    (hbytes : ∀ b ∈ data, b < 256) : readLE32 data i < 2 ^ 32 := by
  rw [readLE32_eq data i h]
  have h0 : data.getD i 0 < 256 := by
    rw [getD_lt data i (by omega)]
    exact hbytes _ (List.getElem_mem _)
  have h1 : data.getD (i + 1) 0 < 256 := by
    rw [getD_lt data (i + 1) (by omega)]
    exact hbytes _ (List.getElem_mem _)
  have h2 : data.getD (i + 2) 0 < 256 := by
    rw [getD_lt data (i + 2) (by omega)]
    exact hbytes _ (List.getElem_mem _)
  have h3 : data.getD (i + 3) 0 < 256 := by
    rw [getD_lt data (i + 3) (by omega)]
    exact hbytes _ (List.getElem_mem _)
  have e2 : (256 : Nat) ^ 2 = 65536 := by norm_num
  have e3 : (256 : Nat) ^ 3 = 16777216 := by norm_num
  have e32 : (2 : Nat) ^ 32 = 4294967296 := by norm_num
  rw [e2, e3, e32]
  omega

/-! ## Lemmas about the batch loop -/

theorem extract_images_loop_aux :
    ∀ (files : List (List Char × Except (List Char) (List Nat)))
      (s f : Nat) (fl : List (List Char)),
      files.foldl batchStep (s, f, fl) =
        (s + files.countP (fun x => ! isFailureB x), f + files.countP isFailureB,
          fl ++ (files.filter isFailureB).map Prod.fst) := by
  intro files
  induction files with
  | nil =>
    intro s f fl
    simp
  | cons x xs ih =>
    intro s f fl
    rw [List.foldl_cons]
    cases ho : extractOutcome x.1 x.2 with
    | ok n =>
      have hfail : isFailureB x = false := by
        unfold isFailureB
        rw [ho]
      have hstep : batchStep (s, f, fl) x = (s + 1, f, fl) := by
        unfold batchStep
        rw [ho]
      rw [hstep, ih]
      rw [List.countP_cons_of_pos _ _ (by rw [hfail]; rfl)]
      rw [List.countP_cons_of_neg _ _ (by rw [hfail]; exact Bool.false_ne_true)]
      rw [List.filter_cons_of_neg (by rw [hfail]; exact Bool.false_ne_true)]
      simp only [Prod.mk.injEq, and_true, true_and]
      omega
    | failed r =>
      have hfail : isFailureB x = true := by
        unfold isFailureB
        rw [ho]
      have hstep : batchStep (s, f, fl) x = (s, f + 1, fl ++ [x.1]) := by
        unfold batchStep
        rw [ho]
      rw [hstep, ih]
      rw [List.countP_cons_of_neg _ _ (by rw [hfail]; simp)]
      rw [List.countP_cons_of_pos _ _ hfail]
      rw [List.filter_cons_of_pos hfail]
      simp only [List.map_cons, List.append_assoc, List.singleton_append]
      simp only [Prod.mk.injEq, and_true, true_and]
      omega

theorem countP_failure_split (files : List (List Char × Except (List Char) (List Nat))) :
    files.countP (fun x => ! isFailureB x) + files.countP isFailureB = files.length := by
  induction files with
  | nil => rfl
  | cons x xs ih =>
    cases hf : isFailureB x with
    | false =>
      rw [List.countP_cons_of_pos _ _ (by rw [hf]; rfl)]
      rw [List.countP_cons_of_neg _ _ (by rw [hf]; exact Bool.false_ne_true)]
      simp only [List.length_cons]
      omega
    | true =>
      rw [List.countP_cons_of_neg _ _ (by rw [hf]; simp)]
      rw [List.countP_cons_of_pos _ _ hf]
      simp only [List.length_cons]
      omega

/-! ## Claim theorems -/

/-- C1: For every buffer containing a well-formed frame at offset `k` —
`b'RIFF'` at `k`, a little-endian unsigned 32-bit size at `k+4..k+8`,
`b'WEBP'` at `k+8..k+12`, and `k + 8 + size ≤ len(buffer)` — where `k` is
the first structurally valid candidate scanning forward from offset 0,
extraction succeeds and the written bytes are exactly
`buffer[k : k+8+size]`, unmodified; the loop returns at this first valid
frame and does not continue scanning. -/
theorem C1_first_valid_frame_extracted (data : List Nat) (name : List Char) (k : Nat)
    (hk : validFrameAt data k)
    (hfirst : ∀ j, j < k → ¬ validFrameAt data j) :
    extract_webp_from_ctex data name =
      ExtractResult.extracted (deriveName name)
        (listSlice data k (k + 8 + readLE32 data (k + 4))) := by
  unfold extract_webp_from_ctex
  exact extractLoop_reach data name k hk (k + 1) 0 (by omega) (by omega)
    (fun j _ h2 => hfirst j h2)

/-- Witness for C1 on the 12-byte buffer `RIFF | 04 00 00 00 | WEBP`. -/
theorem C1_witness :
    validFrameAt [82, 73, 70, 70, 4, 0, 0, 0, 87, 69, 66, 80] 0 ∧
    extract_webp_from_ctex [82, 73, 70, 70, 4, 0, 0, 0, 87, 69, 66, 80] ['x'] =
      ExtractResult.extracted (deriveName ['x'])
        (listSlice [82, 73, 70, 70, 4, 0, 0, 0, 87, 69, 66, 80] 0
          (0 + 8 + readLE32 [82, 73, 70, 70, 4, 0, 0, 0, 87, 69, 66, 80] (0 + 4))) :=
  ⟨by decide,
    C1_first_valid_frame_extracted [82, 73, 70, 70, 4, 0, 0, 0, 87, 69, 66, 80] ['x'] 0
      (by decide) (by decide)⟩

/-- C2: A candidate offset `p` found by the signature scan is rejected —
and scanning resumes at exactly `p + 1` — whenever fewer than 12 bytes
remain, or the type tag at `p+8..p+12` differs from `b'WEBP'`, or
`p + 8 + declared_size` exceeds the buffer length; a frame is only
materialized from a structurally valid candidate (bounds included), and a
valid frame located after a rejected candidate is still found and
extracted. -/
theorem C2_candidate_rejection (data : List Nat) (name : List Char) (pos p k : Nat)
    (hfind : bytesFind data webp_sig pos = some p)
    (hrej : ¬ (p + 12 ≤ data.length ∧ listSlice data (p + 8) (p + 12) = webpTag ∧
      p + 8 + readLE32 data (p + 4) ≤ data.length))
    (hk : validFrameAt data k)
    (hfirst : ∀ j, j < k → ¬ validFrameAt data j) :
    extractLoop data name pos = extractLoop data name (p + 1) ∧
    extract_webp_from_ctex data name =
      ExtractResult.extracted (deriveName name)
        (listSlice data k (k + 8 + readLE32 data (k + 4))) ∧
    (∀ n pl, extract_webp_from_ctex data name = ExtractResult.extracted n pl →
      ∃ q, validFrameAt data q ∧ pl = listSlice data q (q + 8 + readLE32 data (q + 4))) := by
  refine ⟨?_, ?_, ?_⟩
  · refine extractLoop_rejected data name pos p hfind ?_
    intro hv
    refine hrej ⟨?_, hv.2.1, hv.2.2⟩
    have := validFrameAt_le data p hv
    omega
  · unfold extract_webp_from_ctex
    exact extractLoop_reach data name k hk (k + 1) 0 (by omega) (by omega)
      (fun j _ h2 => hfirst j h2)
  · intro n pl h
    unfold extract_webp_from_ctex at h
    obtain ⟨q, _, hq2, _, hq4⟩ :=
      extractLoop_sound data name (data.length + 1) 0 n pl (by omega) h
    exact ⟨q, hq2, hq4⟩

/-- Witness for C2: the buffer `RIFF | RIFF | 04 00 00 00 | WEBP` has a
false-positive candidate at offset 0 (its tag bytes are the size field)
and a valid frame at offset 4. -/
theorem C2_witness :
    extractLoop [82, 73, 70, 70, 82, 73, 70, 70, 4, 0, 0, 0, 87, 69, 66, 80] ['x'] 0 =
      extractLoop [82, 73, 70, 70, 82, 73, 70, 70, 4, 0, 0, 0, 87, 69, 66, 80] ['x'] (0 + 1) ∧
    extract_webp_from_ctex [82, 73, 70, 70, 82, 73, 70, 70, 4, 0, 0, 0, 87, 69, 66, 80] ['x'] =
      ExtractResult.extracted (deriveName ['x'])
        (listSlice [82, 73, 70, 70, 82, 73, 70, 70, 4, 0, 0, 0, 87, 69, 66, 80] 4
          (4 + 8 + readLE32 [82, 73, 70, 70, 82, 73, 70, 70, 4, 0, 0, 0, 87, 69, 66, 80] (4 + 4))) ∧
    (∀ n pl,
      extract_webp_from_ctex [82, 73, 70, 70, 82, 73, 70, 70, 4, 0, 0, 0, 87, 69, 66, 80] ['x'] =
        ExtractResult.extracted n pl →
      ∃ q, validFrameAt [82, 73, 70, 70, 82, 73, 70, 70, 4, 0, 0, 0, 87, 69, 66, 80] q ∧
        pl = listSlice [82, 73, 70, 70, 82, 73, 70, 70, 4, 0, 0, 0, 87, 69, 66, 80] q
          (q + 8 + readLE32 [82, 73, 70, 70, 82, 73, 70, 70, 4, 0, 0, 0, 87, 69, 66, 80] (q + 4))) :=
  C2_candidate_rejection [82, 73, 70, 70, 82, 73, 70, 70, 4, 0, 0, 0, 87, 69, 66, 80] ['x']
    0 0 4 (by decide) (by decide) (by decide) (by decide)

/-- C3 counterexample: the claim's no-`-` branch says the `.ctex`
*suffix* is removed, but the code removes every occurrence of `.ctex`
(`str.replace`).  On the container name `a.ctex.b.ctex` the code derives
`a.b`, while suffix-only removal would derive `a.ctex.b`. -/
theorem C3_counterexample :
    deriveName ('a' :: ctexStr ++ '.' :: 'b' :: ctexStr) = ['a', '.', 'b'] ∧
    deriveNameSuffixSpec ('a' :: ctexStr ++ '.' :: 'b' :: ctexStr) =
      ('a' :: ctexStr ++ ['.', 'b']) ∧
    deriveName ('a' :: ctexStr ++ '.' :: 'b' :: ctexStr) ≠
      deriveNameSuffixSpec ('a' :: ctexStr ++ '.' :: 'b' :: ctexStr) :=
  ⟨by decide, by decide, by decide⟩

/-- C3 (amended): filename derivation is the pure string function with
exactly these branches: the base name is the substring before the first
`-` when the filename contains a `-`, otherwise the filename with every
occurrence of `.ctex` removed; a default `.webp` extension is appended
when the base name contains no `.`.  The claim's three examples hold. -/
theorem C3_amended_derivation (F : List Char) :
    deriveName F = deriveNameClaim F ∧
    deriveName "sprite.png-ab12cd34.ctex".toList = "sprite.png".toList ∧
    deriveName "icon-9f8e.ctex".toList = "icon.webp".toList ∧
    deriveName "noext-xyz.ctex".toList = "noext.webp".toList :=
  ⟨deriveName_eq_claim F, by decide, by decide, by decide⟩

/-- C4 counterexample: filename derivation is not idempotent.  On
`a.ctex-b` it derives `a.ctex` (prefix before the first `-`, which
contains a `.`), but re-deriving `a.ctex` gives `a.webp` (the `.ctex` is
removed, leaving `a` with no extension). -/
theorem C4_counterexample :
    deriveName (deriveName "a.ctex-b".toList) ≠ deriveName "a.ctex-b".toList ∧
    deriveName "a.ctex-b".toList = "a.ctex".toList ∧
    deriveName (deriveName "a.ctex-b".toList) = "a.webp".toList :=
  ⟨by decide, by decide, by decide⟩

/-- C4 (amended): filename derivation is deterministic (equal inputs give
equal outputs), and it is idempotent on every input whose derived name
contains no occurrence of `.ctex` (the counterexample shows idempotence
fails when `.ctex` survives into the derived name). -/
theorem C4_deterministic_idempotent (F G : List Char) (hFG : F = G)
    (h : hasSubstr ctexStr (deriveName F) = false) :
    deriveName F = deriveName G ∧
    deriveName (deriveName F) = deriveName F := by
  have hidem : deriveName (deriveName F) = deriveName F := by
    have hd := dash_not_mem_deriveName F
    have hdot := dot_mem_deriveName F
    set D := deriveName F with hD
    simp only [deriveName]
    rw [if_neg hd, replaceAll_id_of_not_hasSubstr ctexStr D h, if_pos hdot]
  exact ⟨by rw [hFG], hidem⟩

/-- Witness for C4 on `icon-9f8e.ctex`, whose derived name `icon.webp`
contains no `.ctex`. -/
theorem C4_witness :
    deriveName "icon-9f8e.ctex".toList = deriveName "icon-9f8e.ctex".toList ∧
    deriveName (deriveName "icon-9f8e.ctex".toList) = deriveName "icon-9f8e.ctex".toList :=
  C4_deterministic_idempotent "icon-9f8e.ctex".toList "icon-9f8e.ctex".toList rfl (by decide)

/-- C5: extraction reports the not-found outcome (the source's
`(False, "未找到WebP数据")`) exactly when no candidate offset yields a valid
frame — in particular when `b'RIFF'` occurs nowhere; no payload is
produced in that case. -/
theorem C5_notFound_iff_no_valid_frame (data : List Nat) (name : List Char) :
    extract_webp_from_ctex data name = ExtractResult.notFound ↔
      ∀ j, ¬ validFrameAt data j := by
  constructor
  · intro h j hv
    have hex : ∃ i, validFrameAt data i := ⟨j, hv⟩
    have hk := Nat.find_spec hex
    have hr := extractLoop_reach data name (Nat.find hex) hk (Nat.find hex + 1) 0
      (by omega) (by omega) (fun i _ h2 => Nat.find_min hex h2)
    unfold extract_webp_from_ctex at h
    rw [h] at hr
    exact absurd hr (by simp)
  · intro h
    unfold extract_webp_from_ctex
    exact extractLoop_notFound data name (data.length + 1) 0 (by omega) (fun j _ => h j)

/-- Witness for C5 on a buffer with no `RIFF` marker at all. -/
theorem C5_witness :
    extract_webp_from_ctex [0, 0, 0] ['x'] = ExtractResult.notFound :=
  (C5_notFound_iff_no_valid_frame [0, 0, 0] ['x']).mpr (fun j hv => by
    have hle := validFrameAt_le [0, 0, 0] j hv
    simp only [List.length_cons, List.length_nil] at hle
    omega)

/-- C6: the declared size is decoded from the 4 bytes at `k+4..k+8` as an
unsigned 32-bit little-endian integer
(`b0 + 256*b1 + 256^2*b2 + 256^3*b3`, lying in `[0, 2^32)` for genuine
byte buffers), it counts the frame's bytes after the first 8 header bytes
(the payload has length `8 + size`), and the extracted payload is exactly
the byte range `[k, k + 8 + size)`. -/
theorem C6_size_field (data : List Nat) (name : List Char) (k : Nat)
    (hbytes : ∀ b ∈ data, b < 256)
    (hk : validFrameAt data k)
    (hfirst : ∀ j, j < k → ¬ validFrameAt data j) :
    readLE32 data (k + 4) =
      data.getD (k + 4) 0 + 256 * data.getD (k + 5) 0 +
        256 ^ 2 * data.getD (k + 6) 0 + 256 ^ 3 * data.getD (k + 7) 0 ∧
    readLE32 data (k + 4) < 2 ^ 32 ∧
    extract_webp_from_ctex data name =
      ExtractResult.extracted (deriveName name)
        (listSlice data k (k + 8 + readLE32 data (k + 4))) ∧
    (listSlice data k (k + 8 + readLE32 data (k + 4))).length =
      8 + readLE32 data (k + 4) := by
  have hlen := validFrameAt_le data k hk
  have h4 : k + 4 + 4 ≤ data.length := by omega
  refine ⟨?_, readLE32_lt data (k + 4) h4 hbytes, ?_, ?_⟩
  · rw [readLE32_eq data (k + 4) h4]
  · unfold extract_webp_from_ctex
    exact extractLoop_reach data name k hk (k + 1) 0 (by omega) (by omega)
      (fun j _ h2 => hfirst j h2)
  · unfold listSlice
    rw [List.length_take, List.length_drop]
    have := hk.2.2
    omega

/-- Witness for C6 on the 12-byte buffer `RIFF | 04 00 00 00 | WEBP`. -/
theorem C6_witness :
    readLE32 [82, 73, 70, 70, 4, 0, 0, 0, 87, 69, 66, 80] (0 + 4) < 2 ^ 32 :=
  (C6_size_field [82, 73, 70, 70, 4, 0, 0, 0, 87, 69, 66, 80] ['x'] 0
    (by decide) (by decide) (by decide)).2.1

/-- C7: every per-file failure (failed read surfacing at the `except`
boundary, or a buffer with no valid frame) is converted into a per-file
failed outcome; the batch loop processes all `N` files and reports
exactly `M` failures and `N − M` successes, with the failing filenames
collected in order. -/
theorem C7_batch_counts (files : List (List Char × Except (List Char) (List Nat))) :
    extract_images_loop files =
      (files.length - files.countP isFailureB, files.countP isFailureB,
        (files.filter isFailureB).map Prod.fst) ∧
    (extract_images_loop files).1 + (extract_images_loop files).2.1 = files.length ∧
    (∀ name e, extractOutcome name (Except.error e) = FileOutcome.failed e) := by
  have hsplit := countP_failure_split files
  have hloop : extract_images_loop files =
      (files.countP (fun x => ! isFailureB x), files.countP isFailureB,
        (files.filter isFailureB).map Prod.fst) := by
    unfold extract_images_loop
    rw [extract_images_loop_aux files 0 0 []]
    simp
  refine ⟨?_, ?_, fun name e => rfl⟩
  · rw [hloop]
    simp only [Prod.mk.injEq, and_true, true_and]
    omega
  · rw [hloop]
    exact hsplit

/-- C8: the signature scan has literal substring-search semantics: a
yielded offset is a genuine unaligned occurrence of `b'RIFF'`; yields are
minimal (no occurrence between the start position and the yield) and
strictly increasing across restarts; every occurrence at or after the
start position bounds the yield; and nothing is yielded once the marker
is absent from the remainder of the buffer. -/
theorem C8_scanner_spec (data : List Nat) (start : Nat) :
    (∀ p, bytesFind data webp_sig start = some p →
      start ≤ p ∧ matchesAt data webp_sig p = true ∧
      ∀ i, start ≤ i → i < p → matchesAt data webp_sig i = false) ∧
    (bytesFind data webp_sig start = none →
      ∀ i, start ≤ i → matchesAt data webp_sig i = false) ∧
    (∀ p q, bytesFind data webp_sig start = some p →
      bytesFind data webp_sig (p + 1) = some q → p < q) ∧
    (∀ i, start ≤ i → matchesAt data webp_sig i = true →
      ∃ p, bytesFind data webp_sig start = some p ∧ start ≤ p ∧ p ≤ i) := by
  refine ⟨?_, ?_, ?_, ?_⟩
  · intro p h
    exact bytesFind_some data webp_sig start p h
  · intro h
    exact bytesFind_none data webp_sig (by decide) start h
  · intro p q _ h2
    have := (bytesFind_some data webp_sig (p + 1) q h2).1
    omega
  · intro i hi hm
    cases hfind : bytesFind data webp_sig start with
    | none =>
      have := bytesFind_none data webp_sig (by decide) start hfind i hi
      rw [this] at hm
      exact absurd hm (by simp)
    | some p =>
      obtain ⟨h1, _, h3⟩ := bytesFind_some data webp_sig start p hfind
      refine ⟨p, rfl, h1, ?_⟩
      by_contra hgt
      push_neg at hgt
      have := h3 i hi hgt
      rw [this] at hm
      exact absurd hm (by simp)

/-- Witness for C8: on the buffer `00 | RIFF` the scan started at 0
yields offset 1, a genuine occurrence, with nothing before it. -/
theorem C8_witness :
    (0 : Nat) ≤ 1 ∧ matchesAt [0, 82, 73, 70, 70] webp_sig 1 = true ∧
    ∀ i, 0 ≤ i → i < 1 → matchesAt [0, 82, 73, 70, 70] webp_sig i = false :=
  (C8_scanner_spec [0, 82, 73, 70, 70] 0).1 1 (by decide)

/-- C9: the scanning loop terminates on every finite buffer: each yielded
candidate position is at least the current position and bounded by the
buffer length, and `len(buffer) + 1 - pos` rounds of fuel already compute
the loop's value from position `pos`. -/
theorem C9_loop_terminates (data : List Nat) (name : List Char) :
    (∀ pos p, bytesFind data webp_sig pos = some p →
      pos ≤ p ∧ p + 4 ≤ data.length) ∧
    (∀ fuel pos, data.length + 1 - pos ≤ fuel →
      extractLoopFuel data name fuel pos = extractLoop data name pos) := by
  constructor
  · intro pos p h
    obtain ⟨h1, h2, _⟩ := bytesFind_some data webp_sig pos p h
    exact ⟨h1, matchesAt_sig_le data p h2⟩
  · intro fuel pos h
    unfold extractLoop
    exact extractLoopFuel_congr data name fuel (data.length + 1 - pos) pos h (le_refl _)

/-- Witness for C9: 7 rounds of fuel compute the loop's value on a
3-byte buffer. -/
theorem C9_witness :
    extractLoopFuel [0, 1, 2] ['x'] 7 0 = extractLoop [0, 1, 2] ['x'] 0 :=
  (C9_loop_terminates [0, 1, 2] ['x']).2 7 0 (by decide)

/-- C10: in the no-`-` branch, the derivation removes every occurrence of
`.ctex` anywhere in the filename, not only a trailing suffix:
`a.ctex.b.ctex` derives `a.b`, a non-trailing occurrence as in
`x.ctexy.png` is removed as well, and a filename with no occurrence of
`.ctex` is left unchanged before the extension check. -/
theorem C10_replace_all_occurrences :
    deriveName ('a' :: ctexStr ++ '.' :: 'b' :: ctexStr) = ['a', '.', 'b'] ∧
    replaceAll ctexStr [] "x.ctexy.png".toList = "xy.png".toList ∧
    (∀ F, hasSubstr ctexStr F = false → replaceAll ctexStr [] F = F) :=
  ⟨by decide, by decide, fun F h => replaceAll_id_of_not_hasSubstr ctexStr F h⟩

/-- Witness for C10: a `.ctex`-free filename is left unchanged by the
replacement. -/
theorem C10_witness : replaceAll ctexStr [] "abc".toList = "abc".toList :=
  C10_replace_all_occurrences.2.2 "abc".toList (by decide)

end GodotUnpacker
